import Mathlib

/-!
Shallow embedding of the vault13 layered virtual file system
(`src/fs.rs` and `src/fs/inifile.rs`).

The resolver (`FileSystem` / `find_provider`) is modelled over an abstract
stream type `σ`: a `Provider` is a pair of result functions (what the
provider's `reader` and `metadata` return for each path), and the resolver
folds over the registered provider list exactly as the `for` loop in
`FileSystem::find_provider` does, with the `error: Option<Error>` slot
carried explicitly.

The path normalizer (`normalize_path` / `build_normalized_path`) is modelled
on `List Char`; a byte-level UTF-8 model of `String::remove` is added to
settle the panic-freedom claim about the two byte-index removals.
-/

/-- Kind of an I/O error, mirroring the `std::io::ErrorKind` values the code
distinguishes: `NotFound` versus everything else (a "hard" failure). -/
inductive ErrKind where
  | notFound
  | permissionDenied
  | other (code : Nat)
deriving DecidableEq

/-- An `std::io::Error`: a kind plus a message string. -/
structure IOError where
  kind : ErrKind
  msg : String
deriving DecidableEq

/-- `Metadata` from `src/fs.rs`: byte length of a resolved resource. -/
structure Metadata where
  len : Nat
deriving DecidableEq

instance {ε α : Type} [DecidableEq ε] [DecidableEq α] : DecidableEq (Except ε α) := fun x y =>
  match x, y with
  | .ok a, .ok b => if h : a = b then .isTrue (by rw [h]) else .isFalse (by simp [h])
  | .ok _, .error _ => .isFalse (by simp)
  | .error _, .ok _ => .isFalse (by simp)
  | .error a, .error b => if h : a = b then .isTrue (by rw [h]) else .isFalse (by simp [h])

/-- A `Provider` (trait object) is determined, for the resolver's purposes,
by the results its two operations return for each path.  `σ` is the type of
the readable byte stream `reader` yields. -/
structure Provider (σ : Type) where
  reader : String → Except IOError σ
  metadata : String → Except IOError Metadata

/-- `FileSystem` from `src/fs.rs`: the ordered provider list. -/
structure FileSystem (σ : Type) where
  providers : List (Provider σ)

/-- `FileSystem::new`. -/
def FileSystem.new {σ : Type} : FileSystem σ :=
  ⟨[]⟩

/-- `FileSystem::register_provider`: push at the end of the list. -/
def FileSystem.register_provider {σ : Type} (fs : FileSystem σ) (p : Provider σ) :
    FileSystem σ :=
  ⟨fs.providers ++ [p]⟩

/-- The synthesized error of `find_provider`'s final
`Error::new(ErrorKind::NotFound, format!("file not found: {}", path))`. -/
def notFoundError (path : String) : IOError :=
  ⟨.notFound, "file not found: " ++ path⟩

/-- The `for provider in &self.providers` loop of `FileSystem::find_provider`,
with the mutable `error : Option<Error>` slot passed explicitly.
`Ok(r) => return Ok(r)`; a `NotFound` error continues; any other error is
recorded into the slot if it is empty and the loop `break`s, falling through
to `Err(error.unwrap_or_else(.. NotFound ..))`, which is also the result when
the list is exhausted. -/
def find_provider_loop {σ T : Type} (path : String) (f : Provider σ → Except IOError T) :
    List (Provider σ) → Option IOError → Except IOError T
  | [], error => .error (error.getD (notFoundError path))
  | p :: ps, error =>
    match f p with
    | .ok r => .ok r
    | .error e =>
      if e.kind = .notFound then
        find_provider_loop path f ps error
      else
        .error ((if error.isNone then some e else error).getD (notFoundError path))

/-- `FileSystem::find_provider`: run the loop with an empty error slot. -/
def find_provider {σ T : Type} (path : String) (f : Provider σ → Except IOError T)
    (providers : List (Provider σ)) : Except IOError T :=
  find_provider_loop path f providers none

/-- How many providers the `find_provider` loop invokes `f` on: one for a
success or a hard failure (the loop stops), one plus the rest for a
`NotFound` (the loop continues). -/
def find_provider_invoked {σ T : Type} (f : Provider σ → Except IOError T) :
    List (Provider σ) → Nat
  | [] => 0
  | p :: ps =>
    match f p with
    | .ok _ => 1
    | .error e => if e.kind = .notFound then 1 + find_provider_invoked f ps else 1

/-- `FileSystem::reader`. -/
def FileSystem.reader {σ : Type} (fs : FileSystem σ) (path : String) : Except IOError σ :=
  find_provider path (fun p => p.reader path) fs.providers

/-- `FileSystem::metadata`. -/
def FileSystem.metadata {σ : Type} (fs : FileSystem σ) (path : String) :
    Except IOError Metadata :=
  find_provider path (fun p => p.metadata path) fs.providers

/-- Number of providers invoked while resolving `reader path`. -/
def FileSystem.readerInvoked {σ : Type} (fs : FileSystem σ) (path : String) : Nat :=
  find_provider_invoked (fun p => p.reader path) fs.providers

/-- Number of providers invoked while resolving `metadata path`. -/
def FileSystem.metadataInvoked {σ : Type} (fs : FileSystem σ) (path : String) : Nat :=
  find_provider_invoked (fun p => p.metadata path) fs.providers

/-- `FileSystem::exists`: `self.metadata(path).is_ok()`. -/
def FileSystem.existsPath {σ : Type} (fs : FileSystem σ) (path : String) : Bool :=
  (fs.metadata path).isOk

/-- `true` iff the result is a `NotFound` error (used to phrase "this provider
answered NotFound" hypotheses decidably). -/
def isNotFoundRes {T : Type} : Except IOError T → Bool
  | .error e => e.kind == .notFound
  | .ok _ => false

/-- `char::to_ascii_lowercase`: shift `'A'..='Z'` down into `'a'..='z'`,
leave every other character (including non-ASCII) unchanged. -/
def toAsciiLowercase (c : Char) : Char :=
  if 'A' ≤ c ∧ c ≤ 'Z' then Char.ofNat (c.toNat + 32) else c

/-- The character substitution of `build_normalized_path`:
`c = if c == '/' { '\\' } else { c.to_ascii_lowercase() }`. -/
def mapChar (c : Char) : Char :=
  if c = '/' then '\\' else toAsciiLowercase c

/-- `path.ends_with("\\.\\")` on the char-list model: the last three
characters are backslash, dot, backslash. -/
def endsWithSDS (l : List Char) : Bool :=
  l.drop (l.length - 3) == ['\\', '.', '\\']

/-- `build_normalized_path` from `src/fs/inifile.rs`, on `List Char`.
If `c` is present, its mapped form is pushed.  Then, if the accumulated path
equals `".\"` — or `c` is absent and it equals `"."` — it is truncated to
empty; otherwise if it ends with `"\.\"` the last backslash (byte `l-1`) and
the dot (byte `l-2`) are removed, which on characters is dropping the last
two and is proved below to match the byte-level removals. -/
def build_normalized_path (path : List Char) (c : Option Char) : List Char :=
  let p := match c with
    | some c0 => path ++ [mapChar c0]
    | none => path
  if p = ['.', '\\'] ∨ (c.isNone ∧ p = ['.']) then
    []
  else if endsWithSDS p then
    p.dropLast.dropLast
  else
    p

/-- `normalize_path` from `src/fs/inifile.rs`: fold `build_normalized_path`
over the characters, then one final call with `None`. -/
def normalize_path (s : List Char) : List Char :=
  build_normalized_path (s.foldl (fun r c => build_normalized_path r (some c)) []) none

/-- `normalize_path` on Lean strings (a Rust `&str` is a sequence of chars). -/
def normalizePathStr (s : String) : String :=
  String.mk (normalize_path s.data)

/-- UTF-8 encoding of one scalar value, as the Rust `String` stores it. -/
def utf8Char (c : Char) : List Nat :=
  let n := c.toNat
  if n < 128 then [n]
  else if n < 2048 then [192 + n / 64, 128 + n % 64]
  else if n < 65536 then [224 + n / 4096, 128 + (n / 64) % 64, 128 + n % 64]
  else [240 + n / 262144, 128 + (n / 4096) % 64, 128 + (n / 64) % 64, 128 + n % 64]

/-- UTF-8 byte content of a string given as a char list. -/
def utf8Bytes (s : List Char) : List Nat :=
  (s.map utf8Char).flatten

/-- Length in bytes of the UTF-8 character whose first byte is `b` (what
`String::remove` uses to know how many bytes the removed char occupies). -/
def utf8CharLenOfByte (b : Nat) : Nat :=
  if b < 128 then 1
  else if b < 192 then 0
  else if b < 224 then 2
  else if b < 240 then 3
  else 4

/-- Rust `String::remove(idx)` on the byte content: `none` models the panic
(`idx` out of bounds, or not on a char boundary, i.e. pointing at a UTF-8
continuation byte); otherwise the char starting at byte `idx` is removed. -/
def stringRemove (bs : List Nat) (idx : Nat) : Option (List Nat) :=
  match bs[idx]? with
  | none => none
  | some b =>
    if b < 128 ∨ 192 ≤ b then
      some (bs.take idx ++ bs.drop (idx + utf8CharLenOfByte b))
    else
      none

/-- `State` of the `Inifile` pseudo-provider: whether `File::open` on the
backing file succeeded at construction time. -/
inductive IniState where
  | found
  | missing
  | err
deriving DecidableEq

/-- The `Inifile` pseudo-provider from `src/fs/inifile.rs`. -/
structure Inifile where
  path : String
  state : IniState

/-- `Inifile::new`: the outcome of `File::open` on the backing file is an
input from the outside world; the constructor itself always returns `Ok`,
recording `Found` or `Missing`. -/
def Inifile.new (path : String) (openSucceeds : Bool) : Inifile :=
  if openSucceeds then ⟨path, .found⟩ else ⟨path, .missing⟩

/-- `Inifile::metadata` as written in the source: it ignores `self.state`
(the real lookup is commented out) and unconditionally returns
`Ok(Metadata { len: 1 })`. -/
def Inifile.metadata (_self : Inifile) (_path : String) : Except IOError Metadata :=
  .ok ⟨1⟩

/-- Does the string start with `".\"` (the prefix the normalizer must never
leave in place)? -/
def startsDotBS (l : List Char) : Bool :=
  l.take 2 == ['.', '\\']

/-- Does the string contain the three-character sequence `"\.\"` anywhere? -/
def containsSDS : List Char → Bool
  | [] => false
  | c :: rest => ((c :: rest).take 3 == ['\\', '.', '\\']) || containsSDS rest

/-- Is the character a fixed point of the normalizer's character map (neither
a forward slash nor an uppercase ASCII letter)? -/
def isFixedChar (c : Char) : Bool :=
  mapChar c == c

/-- Invariant maintained by `build_normalized_path` on the accumulated path:
every character is fixed under `mapChar`, the string does not start with
`".\"`, and `"\.\"` occurs nowhere in it. -/
def canonicalAcc (l : List Char) : Bool :=
  l.all isFixedChar && !startsDotBS l && !containsSDS l

/-- A `NotFound` error value used by the concrete test providers. -/
def errNF : IOError :=
  ⟨.notFound, "nf"⟩

/-- A hard (permission) error value used by the concrete test providers. -/
def errPerm : IOError :=
  ⟨.permissionDenied, "perm"⟩

/-- A second, distinct hard error value. -/
def errIo : IOError :=
  ⟨.other 7, "io"⟩

/-- A provider that answers `NotFound` to everything. -/
def provNF : Provider Nat :=
  ⟨fun _ => .error errNF, fun _ => .error errNF⟩

/-- A provider that succeeds on everything, returning stream `n` and
metadata of length `n`. -/
def provOk (n : Nat) : Provider Nat :=
  ⟨fun _ => .ok n, fun _ => .ok ⟨n⟩⟩

/-- A provider that hard-fails everything with `errPerm`. -/
def provHard : Provider Nat :=
  ⟨fun _ => .error errPerm, fun _ => .error errPerm⟩

/-- A provider that hard-fails everything with `errIo`. -/
def provHard2 : Provider Nat :=
  ⟨fun _ => .error errIo, fun _ => .error errIo⟩


theorem isNotFoundRes_eq_true {T : Type} {x : Except IOError T}
    (h : isNotFoundRes x = true) : ∃ e, x = .error e ∧ e.kind = .notFound := by
  cases x with
  | ok r => simp [isNotFoundRes] at h
  | error e =>
    refine ⟨e, rfl, ?_⟩
    simpa [isNotFoundRes] using h

theorem find_provider_loop_all_notFound {σ T : Type} (path : String)
    (f : Provider σ → Except IOError T) (ps : List (Provider σ))
    (h : ps.all (fun q => isNotFoundRes (f q)) = true) :
    find_provider_loop path f ps none = .error (notFoundError path) := by
  induction ps with
  | nil => rfl
  | cons q ps ih =>
    rw [List.all_cons, Bool.and_eq_true] at h
    obtain ⟨e, he, hk⟩ := isNotFoundRes_eq_true h.1
    simp [find_provider_loop, he, hk, ih h.2]

theorem find_provider_spec_ok {σ T : Type} (path : String)
    (f : Provider σ → Except IOError T) :
    ∀ (i : Nat) (ps : List (Provider σ)) (hi : i < ps.length) (r : T),
      (ps.take i).all (fun q => isNotFoundRes (f q)) = true →
      f (ps.get ⟨i, hi⟩) = .ok r →
      find_provider path f ps = .ok r ∧ find_provider_invoked f ps = i + 1 := by
  intro i
  induction i with
  | zero =>
    intro ps hi r _ hok
    match ps, hi with
    | q :: ps', _ =>
      constructor
      · simp only [List.get] at hok
        simp [find_provider, find_provider_loop, hok]
      · simp only [List.get] at hok
        simp [find_provider_invoked, hok]
  | succ n ih =>
    intro ps hi r hall hok
    match ps, hi with
    | q :: ps', hi =>
      rw [List.take_succ_cons, List.all_cons, Bool.and_eq_true] at hall
      obtain ⟨e, he, hk⟩ := isNotFoundRes_eq_true hall.1
      have hi' : n < ps'.length := Nat.lt_of_succ_lt_succ hi
      have hok' : f (ps'.get ⟨n, hi'⟩) = .ok r := hok
      obtain ⟨h1, h2⟩ := ih ps' hi' r hall.2 hok'
      constructor
      · simp only [find_provider] at h1
        simp [find_provider, find_provider_loop, he, hk, h1]
      · simp [find_provider_invoked, he, hk, h2]
        omega

theorem find_provider_spec_hard {σ T : Type} (path : String)
    (f : Provider σ → Except IOError T) :
    ∀ (i : Nat) (ps : List (Provider σ)) (hi : i < ps.length) (e : IOError),
      (ps.take i).all (fun q => isNotFoundRes (f q)) = true →
      f (ps.get ⟨i, hi⟩) = .error e → e.kind ≠ .notFound →
      find_provider path f ps = .error e ∧ find_provider_invoked f ps = i + 1 := by
  intro i
  induction i with
  | zero =>
    intro ps hi e _ herr hk
    match ps, hi with
    | q :: ps', _ =>
      constructor
      · simp only [List.get] at herr
        simp [find_provider, find_provider_loop, herr, hk]
      · simp only [List.get] at herr
        simp [find_provider_invoked, herr, hk]
  | succ n ih =>
    intro ps hi e hall herr hk
    match ps, hi with
    | q :: ps', hi =>
      rw [List.take_succ_cons, List.all_cons, Bool.and_eq_true] at hall
      obtain ⟨e0, he0, hk0⟩ := isNotFoundRes_eq_true hall.1
      have hi' : n < ps'.length := Nat.lt_of_succ_lt_succ hi
      have herr' : f (ps'.get ⟨n, hi'⟩) = .error e := herr
      obtain ⟨h1, h2⟩ := ih ps' hi' e hall.2 herr' hk
      constructor
      · simp only [find_provider] at h1
        simp [find_provider, find_provider_loop, he0, hk0, h1]
      · simp [find_provider_invoked, he0, hk0, h2]
        omega

/-- C1 (counterexample): with providers `[provHard, provOk 42]`, provider 1 is
the first whose `reader` operation succeeds for `"p"` (provider 0 does not
succeed), yet `FileSystem.reader "p"` returns provider 0's hard error, not
provider 1's result, so the claim as stated fails. -/
theorem c1_counterexample :
    Except.isOk (provHard.reader "p") = false ∧
    (provOk 42).reader "p" = .ok 42 ∧
    (FileSystem.mk [provHard, provOk 42]).reader "p" = .error errPerm ∧
    (FileSystem.mk [provHard, provOk 42]).reader "p" ≠ .ok 42 := by
  decide

/-- C1 (amended): if every provider before index `i` answers `NotFound` for
`p` and provider `i`'s operation succeeds, then `FileSystem.reader p`
(resp. `FileSystem.metadata p`) returns exactly provider `i`'s result, and
exactly `i + 1` providers are invoked — no provider after index `i`. -/
theorem c1_first_success_wins {σ : Type} (fs : FileSystem σ) (p : String) (i : Nat)
    (hi : i < fs.providers.length) (r : σ) (m : Metadata)
    (hbr : (fs.providers.take i).all (fun q => isNotFoundRes (q.reader p)) = true)
    (hbm : (fs.providers.take i).all (fun q => isNotFoundRes (q.metadata p)) = true)
    (hr : (fs.providers.get ⟨i, hi⟩).reader p = .ok r)
    (hm : (fs.providers.get ⟨i, hi⟩).metadata p = .ok m) :
    fs.reader p = .ok r ∧ fs.metadata p = .ok m ∧
    fs.readerInvoked p = i + 1 ∧ fs.metadataInvoked p = i + 1 := by
  obtain ⟨h1, h2⟩ := find_provider_spec_ok p (fun q => q.reader p) i fs.providers hi r hbr hr
  obtain ⟨h3, h4⟩ := find_provider_spec_ok p (fun q => q.metadata p) i fs.providers hi m hbm hm
  exact ⟨h1, h3, h2, h4⟩

/-- C1 (witness): providers `[provNF, provOk 42, provOk 7]`, path `"p"`,
`i = 1`: the hypotheses hold and the resolver returns provider 1's results
after invoking exactly two providers. -/
theorem c1_first_success_wins_witness :
    (((FileSystem.mk [provNF, provOk 42, provOk 7]).providers.take 1).all
        (fun q => isNotFoundRes (q.reader "p")) = true ∧
     ((FileSystem.mk [provNF, provOk 42, provOk 7]).providers.take 1).all
        (fun q => isNotFoundRes (q.metadata "p")) = true) ∧
    ((FileSystem.mk [provNF, provOk 42, provOk 7]).reader "p" = .ok 42 ∧
     (FileSystem.mk [provNF, provOk 42, provOk 7]).metadata "p" = .ok ⟨42⟩ ∧
     (FileSystem.mk [provNF, provOk 42, provOk 7]).readerInvoked "p" = 1 + 1 ∧
     (FileSystem.mk [provNF, provOk 42, provOk 7]).metadataInvoked "p" = 1 + 1) :=
  ⟨⟨by decide, by decide⟩,
   c1_first_success_wins (FileSystem.mk [provNF, provOk 42, provOk 7]) "p" 1
     (by decide) 42 ⟨42⟩ (by decide) (by decide) (by decide) (by decide)⟩

/-- C2 (counterexample): with providers `[provHard, provHard2]`, provider 1
returns a hard (non-NotFound) failure `errIo` for `"p"` and no earlier
provider succeeded, yet `FileSystem.reader "p"` returns provider 0's error
`errPerm`, not provider 1's, so the claim as stated fails. -/
theorem c2_counterexample :
    Except.isOk (provHard.reader "p") = false ∧
    provHard2.reader "p" = .error errIo ∧
    errIo.kind ≠ ErrKind.notFound ∧
    (FileSystem.mk [provHard, provHard2]).reader "p" = .error errPerm ∧
    (FileSystem.mk [provHard, provHard2]).reader "p" ≠ .error errIo := by
  decide

/-- C2 (amended): if every provider before index `i` answers `NotFound` for
`p` (so no earlier provider succeeded or hard-failed) and provider `i`'s
`reader` returns a non-`NotFound` error `e`, then `FileSystem.reader p` fails
with exactly `e` (verbatim), and exactly `i + 1` providers are invoked — no
provider after index `i`, even if a later provider would have succeeded. -/
theorem c2_first_hard_failure_wins {σ : Type} (fs : FileSystem σ) (p : String) (i : Nat)
    (hi : i < fs.providers.length) (e : IOError)
    (hb : (fs.providers.take i).all (fun q => isNotFoundRes (q.reader p)) = true)
    (he : (fs.providers.get ⟨i, hi⟩).reader p = .error e)
    (hk : e.kind ≠ ErrKind.notFound) :
    fs.reader p = .error e ∧ fs.readerInvoked p = i + 1 := by
  exact find_provider_spec_hard p (fun q => q.reader p) i fs.providers hi e hb he hk

/-- C2 (witness): providers `[provNF, provHard, provOk 42]`, path `"p"`,
`i = 1`: provider 1 hard-fails with `errPerm`, the resolver surfaces exactly
that error and invokes two providers, never reaching the provider that would
have succeeded. -/
theorem c2_first_hard_failure_wins_witness :
    (((FileSystem.mk [provNF, provHard, provOk 42]).providers.take 1).all
        (fun q => isNotFoundRes (q.reader "p")) = true ∧
     errPerm.kind ≠ ErrKind.notFound ∧
     (provOk 42).reader "p" = .ok 42) ∧
    ((FileSystem.mk [provNF, provHard, provOk 42]).reader "p" = .error errPerm ∧
     (FileSystem.mk [provNF, provHard, provOk 42]).readerInvoked "p" = 1 + 1) :=
  ⟨⟨by decide, by decide, by decide⟩,
   c2_first_hard_failure_wins (FileSystem.mk [provNF, provHard, provOk 42]) "p" 1
     (by decide) errPerm (by decide) (by decide) (by decide)⟩

/-- C3 (confirmed): if every provider answers `NotFound` for `p` on both
operations, `FileSystem.reader p` and `FileSystem.metadata p` fail with the
synthesized `NotFound` error, whose kind is `NotFound` and whose message is
`"file not found: "` followed by the originally requested path string `p`
(so the message contains `p` verbatim, not a canonicalized form). -/
theorem c3_all_notfound {σ : Type} (fs : FileSystem σ) (p : String)
    (hr : fs.providers.all (fun q => isNotFoundRes (q.reader p)) = true)
    (hm : fs.providers.all (fun q => isNotFoundRes (q.metadata p)) = true) :
    fs.reader p = .error (notFoundError p) ∧
    fs.metadata p = .error (notFoundError p) ∧
    (notFoundError p).kind = ErrKind.notFound ∧
    ∃ s, (notFoundError p).msg = s ++ p := by
  refine ⟨?_, ?_, rfl, "file not found: ", rfl⟩
  · exact find_provider_loop_all_notFound p (fun q => q.reader p) fs.providers hr
  · exact find_provider_loop_all_notFound p (fun q => q.metadata p) fs.providers hm

/-- C3 (witness): both providers of `[provNF, provNF]` answer `NotFound` for
`"maps/city.map"`, and the resolver fails with the synthesized `NotFound`
error naming that path. -/
theorem c3_all_notfound_witness :
    ((FileSystem.mk [provNF, provNF]).providers.all
        (fun q => isNotFoundRes (q.reader "maps/city.map")) = true) ∧
    ((FileSystem.mk [provNF, provNF]).reader "maps/city.map" =
        .error (notFoundError "maps/city.map") ∧
     (FileSystem.mk [provNF, provNF]).metadata "maps/city.map" =
        .error (notFoundError "maps/city.map") ∧
     (notFoundError "maps/city.map").kind = ErrKind.notFound ∧
     ∃ s, (notFoundError "maps/city.map").msg = s ++ "maps/city.map") :=
  ⟨by decide,
   c3_all_notfound (FileSystem.mk [provNF, provNF]) "maps/city.map" (by decide) (by decide)⟩

/-- C8 (confirmed): a `FileSystem` with zero registered providers answers
`existsPath p = false` for every path, and both `reader p` and `metadata p`
fail with the synthesized `NotFound` error for every path. -/
theorem c8_empty_filesystem (σ : Type) (p : String) :
    (FileSystem.new : FileSystem σ).existsPath p = false ∧
    (FileSystem.new : FileSystem σ).reader p = .error (notFoundError p) ∧
    (FileSystem.new : FileSystem σ).metadata p = .error (notFoundError p) ∧
    (notFoundError p).kind = ErrKind.notFound :=
  ⟨rfl, rfl, rfl, rfl⟩

/-- C9 (confirmed): for every `FileSystem` and path, `existsPath p` is
literally `(metadata p).isOk` — the same full lookup, result discarded — so
it is `true` exactly when `metadata p` succeeds, and the number of providers
it consults equals the number `metadata p` consults. -/
theorem c9_exists_iff_metadata {σ : Type} (fs : FileSystem σ) (p : String) :
    fs.existsPath p = (fs.metadata p).isOk ∧
    (fs.existsPath p = true ↔ ∃ m, fs.metadata p = .ok m) := by
  refine ⟨rfl, ?_⟩
  unfold FileSystem.existsPath
  cases h : fs.metadata p with
  | ok m => simp [Except.isOk, Except.toBool, h]
  | error e => simp [Except.isOk, Except.toBool, h]

/-- C7 (code evaluation): `Inifile::metadata` as written ignores the
`Missing` construction state and returns `Ok(Metadata { len: 1 })` instead of
a `NotFound` error: a provider over a missing backing file still produces a
`Metadata` value. -/
theorem c7_inifile_metadata_stub (backing p : String) :
    (Inifile.new backing false).state = IniState.missing ∧
    (Inifile.new backing false).metadata p = .ok ⟨1⟩ ∧
    (Inifile.new backing false).metadata p ≠ .error (notFoundError p) := by
  refine ⟨rfl, rfl, ?_⟩
  intro h
  exact Except.noConfusion h

theorem toNat_ofNat_valid {n : Nat} (h : n.isValidChar) : (Char.ofNat n).toNat = n := by
  rw [Char.ofNat, dif_pos h]
  rfl

theorem charToNat_le_of_le {a b : Char} (h : a ≤ b) : a.toNat ≤ b.toNat := by
  rw [Char.le_def, UInt32.le_def, BitVec.le_def] at h
  exact h

theorem toAsciiLowercase_nonascii (c : Char) (h : 127 < c.toNat) :
    toAsciiLowercase c = c := by
  unfold toAsciiLowercase
  rw [if_neg]
  rintro ⟨_, h2⟩
  have hb : c.toNat ≤ 90 := charToNat_le_of_le h2
  omega

theorem toAsciiLowercase_of_upper {c : Char} (h1 : 'A' ≤ c) (h2 : c ≤ 'Z') :
    (toAsciiLowercase c).toNat = c.toNat + 32 := by
  have ha : 65 ≤ c.toNat := charToNat_le_of_le h1
  have hb : c.toNat ≤ 90 := charToNat_le_of_le h2
  unfold toAsciiLowercase
  rw [if_pos ⟨h1, h2⟩]
  exact toNat_ofNat_valid (Or.inl (by omega))

theorem fixedChar_iff (c : Char) :
    isFixedChar c = true ↔ (c ≠ '/' ∧ ¬('A' ≤ c ∧ c ≤ 'Z')) := by
  unfold isFixedChar
  rw [beq_iff_eq]
  constructor
  · intro h
    by_cases hs : c = '/'
    · subst hs
      exact absurd h (by decide)
    · unfold mapChar at h
      rw [if_neg hs] at h
      refine ⟨hs, ?_⟩
      rintro ⟨h1, h2⟩
      have := toAsciiLowercase_of_upper h1 h2
      rw [h] at this
      omega
  · rintro ⟨hs, hu⟩
    unfold mapChar
    rw [if_neg hs]
    unfold toAsciiLowercase
    rw [if_neg hu]

theorem mapChar_fixed (c : Char) : isFixedChar (mapChar c) = true := by
  rw [fixedChar_iff]
  unfold mapChar
  by_cases hs : c = '/'
  · subst hs
    rw [if_pos rfl]
    exact ⟨by decide, by decide⟩
  · rw [if_neg hs]
    unfold toAsciiLowercase
    by_cases hu : 'A' ≤ c ∧ c ≤ 'Z'
    · rw [if_pos hu]
      have ha : 65 ≤ c.toNat := charToNat_le_of_le hu.1
      have hb : c.toNat ≤ 90 := charToNat_le_of_le hu.2
      have ht : (Char.ofNat (c.toNat + 32)).toNat = c.toNat + 32 :=
        toNat_ofNat_valid (Or.inl (by omega))
      constructor
      · intro hEq
        rw [hEq] at ht
        have h47 : (47 : Nat) = c.toNat + 32 := ht
        omega
      · rintro ⟨_, h2⟩
        have h2' : (Char.ofNat (c.toNat + 32)).toNat ≤ 90 := charToNat_le_of_le h2
        rw [ht] at h2'
        omega
    · rw [if_neg hu]
      exact ⟨hs, hu⟩

theorem endsWithSDS_iff (l : List Char) :
    endsWithSDS l = true ↔ ∃ q, l = q ++ ['\\', '.', '\\'] := by
  unfold endsWithSDS
  rw [beq_iff_eq]
  constructor
  · intro h
    refine ⟨l.take (l.length - 3), ?_⟩
    conv_lhs => rw [← List.take_append_drop (l.length - 3) l]
    rw [h]
  · rintro ⟨q, rfl⟩
    have hl : (q ++ ['\\', '.', '\\']).length = q.length + 3 := by simp
    rw [hl]
    have h3 : q.length + 3 - 3 = q.length := by omega
    rw [h3]
    exact List.drop_left q _

theorem startsDotBS_iff (l : List Char) :
    startsDotBS l = true ↔ ∃ t, l = '.' :: '\\' :: t := by
  unfold startsDotBS
  rw [beq_iff_eq]
  constructor
  · intro h
    refine ⟨l.drop 2, ?_⟩
    conv_lhs => rw [← List.take_append_drop 2 l]
    rw [h]
    rfl
  · rintro ⟨t, rfl⟩
    rfl

theorem containsSDS_iff (l : List Char) :
    containsSDS l = true ↔ ∃ u v, l = u ++ ['\\', '.', '\\'] ++ v := by
  constructor
  · intro h
    induction l with
    | nil => exact absurd h (by decide)
    | cons c rest ih =>
      rw [containsSDS, Bool.or_eq_true] at h
      cases h with
      | inl h =>
        rw [beq_iff_eq] at h
        refine ⟨[], rest.drop 2, ?_⟩
        conv_lhs => rw [← List.take_append_drop 3 (c :: rest)]
        rw [h]
        rfl
      | inr h =>
        obtain ⟨u, v, huv⟩ := ih h
        exact ⟨c :: u, v, by rw [huv]; rfl⟩
  · rintro ⟨u, v, rfl⟩
    induction u with
    | nil =>
      simp only [List.nil_append, List.cons_append]
      rw [containsSDS, Bool.or_eq_true]
      left
      rw [beq_iff_eq]
      rfl
    | cons x u ih =>
      simp only [List.cons_append] at ih ⊢
      rw [containsSDS, Bool.or_eq_true]
      exact Or.inr ih

theorem canonicalAcc_spec {l : List Char} (h : canonicalAcc l = true) :
    l.all isFixedChar = true ∧ startsDotBS l = false ∧ containsSDS l = false := by
  unfold canonicalAcc at h
  rw [Bool.and_eq_true, Bool.and_eq_true] at h
  refine ⟨h.1.1, ?_, ?_⟩
  · have h2 := h.1.2
    rwa [Bool.not_eq_true'] at h2
  · have h3 := h.2
    rwa [Bool.not_eq_true'] at h3

theorem canonicalAcc_of {l : List Char} (h1 : l.all isFixedChar = true)
    (h2 : startsDotBS l = false) (h3 : containsSDS l = false) :
    canonicalAcc l = true := by
  unfold canonicalAcc
  rw [h1, h2, h3]
  rfl

theorem startsDotBS_false_no {l : List Char} (h : startsDotBS l = false) :
    ∀ t, l ≠ '.' :: '\\' :: t := by
  intro t ht
  have hb : startsDotBS l = true := (startsDotBS_iff l).mpr ⟨t, ht⟩
  rw [h] at hb
  exact Bool.noConfusion hb

theorem containsSDS_false_no {l : List Char} (h : containsSDS l = false) :
    ∀ u v, l ≠ u ++ ['\\', '.', '\\'] ++ v := by
  intro u v huv
  have hb : containsSDS l = true := (containsSDS_iff l).mpr ⟨u, v, huv⟩
  rw [h] at hb
  exact Bool.noConfusion hb

theorem endsWithSDS_false_of_no_contains {l : List Char} (h : containsSDS l = false) :
    endsWithSDS l = false := by
  cases hb : endsWithSDS l with
  | false => rfl
  | true =>
    obtain ⟨q, hq⟩ := (endsWithSDS_iff l).mp hb
    exact absurd (by rw [hq]; simp) (containsSDS_false_no h q [])

theorem concat_inj_chars {a b : List Char} {x y : Char} (h : a ++ [x] = b ++ [y]) :
    a = b ∧ x = y := by
  have h1 := congrArg List.dropLast h
  rw [List.dropLast_concat, List.dropLast_concat] at h1
  have h2 := congrArg List.getLast? h
  rw [List.getLast?_concat, List.getLast?_concat] at h2
  exact ⟨h1, Option.some.inj h2⟩

theorem build_some_eq (r : List Char) (c : Char) :
    build_normalized_path r (some c) =
      if r ++ [mapChar c] = ['.', '\\'] then []
      else if endsWithSDS (r ++ [mapChar c]) then (r ++ [mapChar c]).dropLast.dropLast
      else r ++ [mapChar c] := by
  unfold build_normalized_path
  simp

theorem build_none_eq (r : List Char) :
    build_normalized_path r none =
      if r = ['.', '\\'] ∨ r = ['.'] then []
      else if endsWithSDS r then r.dropLast.dropLast
      else r := by
  unfold build_normalized_path
  simp

theorem canonicalAcc_build_some {r : List Char} (c : Char) (h : canonicalAcc r = true) :
    canonicalAcc (build_normalized_path r (some c)) = true := by
  obtain ⟨hall, hstart, hcont⟩ := canonicalAcc_spec h
  rw [build_some_eq]
  by_cases h1 : r ++ [mapChar c] = ['.', '\\']
  · rw [if_pos h1]
    decide
  · rw [if_neg h1]
    by_cases h2 : endsWithSDS (r ++ [mapChar c]) = true
    · rw [if_pos h2]
      obtain ⟨q, hq⟩ := (endsWithSDS_iff _).mp h2
      have hq' : r ++ [mapChar c] = (q ++ ['\\', '.']) ++ ['\\'] := by
        rw [hq]
        simp
      obtain ⟨hr, _⟩ := concat_inj_chars hq'
      have hres : (r ++ [mapChar c]).dropLast.dropLast = q ++ ['\\'] := by
        rw [List.dropLast_concat, hr]
        have hsplit : q ++ ['\\', '.'] = (q ++ ['\\']) ++ ['.'] := by simp
        rw [hsplit, List.dropLast_concat]
      rw [hres]
      apply canonicalAcc_of
      · have hra : (q ++ ['\\', '.']).all isFixedChar = true := by
          rw [← hr]
          exact hall
        rw [List.all_append, Bool.and_eq_true] at hra
        rw [List.all_append, Bool.and_eq_true]
        exact ⟨hra.1, by decide⟩
      · cases hb : startsDotBS (q ++ ['\\']) with
        | false => rfl
        | true =>
          obtain ⟨t, ht⟩ := (startsDotBS_iff _).mp hb
          exfalso
          apply startsDotBS_false_no hstart (t ++ ['.'])
          rw [hr]
          have hsplit : q ++ ['\\', '.'] = (q ++ ['\\']) ++ ['.'] := by simp
          rw [hsplit, ht]
          rfl
      · cases hb : containsSDS (q ++ ['\\']) with
        | false => rfl
        | true =>
          obtain ⟨u, v, huv⟩ := (containsSDS_iff _).mp hb
          exfalso
          apply containsSDS_false_no hcont u (v ++ ['.'])
          rw [hr]
          have hsplit : q ++ ['\\', '.'] = (q ++ ['\\']) ++ ['.'] := by simp
          rw [hsplit, huv]
          simp
    · rw [if_neg h2]
      apply canonicalAcc_of
      · rw [List.all_append, Bool.and_eq_true]
        refine ⟨hall, ?_⟩
        have hf := mapChar_fixed c
        simp [hf]
      · cases hb : startsDotBS (r ++ [mapChar c]) with
        | false => rfl
        | true =>
          obtain ⟨t, ht⟩ := (startsDotBS_iff _).mp hb
          exfalso
          rcases List.eq_nil_or_concat t with hT | ⟨t', x, hT⟩
          · subst hT
            exact h1 (by rw [ht])
          · subst hT
            rw [List.concat_eq_append] at ht
            have ht2 : r ++ [mapChar c] = ('.' :: '\\' :: t') ++ [x] := by
              rw [ht]
              rfl
            obtain ⟨hr', _⟩ := concat_inj_chars ht2
            exact startsDotBS_false_no hstart t' hr'
      · cases hb : containsSDS (r ++ [mapChar c]) with
        | false => rfl
        | true =>
          obtain ⟨u, v, huv⟩ := (containsSDS_iff _).mp hb
          exfalso
          rcases List.eq_nil_or_concat v with hV | ⟨v', x, hV⟩
          · subst hV
            apply h2
            apply (endsWithSDS_iff _).mpr
            exact ⟨u, by rw [huv]; simp⟩
          · subst hV
            rw [List.concat_eq_append] at huv
            have huv2 : r ++ [mapChar c] = (u ++ ['\\', '.', '\\'] ++ v') ++ [x] := by
              rw [huv]
              simp
            obtain ⟨hr', _⟩ := concat_inj_chars huv2
            exact containsSDS_false_no hcont u v' hr'

theorem canonicalAcc_foldl (s : List Char) :
    ∀ r, canonicalAcc r = true →
      canonicalAcc (s.foldl (fun a c => build_normalized_path a (some c)) r) = true := by
  induction s with
  | nil =>
    intro r h
    exact h
  | cons c s ih =>
    intro r h
    rw [List.foldl_cons]
    exact ih _ (canonicalAcc_build_some c h)

theorem normalize_path_inv (s : List Char) :
    canonicalAcc (normalize_path s) = true ∧ normalize_path s ≠ ['.'] := by
  unfold normalize_path
  have hc : canonicalAcc (s.foldl (fun r c => build_normalized_path r (some c)) []) = true :=
    canonicalAcc_foldl s [] (by decide)
  obtain ⟨hall, hstart, hcont⟩ := canonicalAcc_spec hc
  rw [build_none_eq]
  by_cases h1 : s.foldl (fun r c => build_normalized_path r (some c)) [] = ['.', '\\'] ∨
      s.foldl (fun r c => build_normalized_path r (some c)) [] = ['.']
  · rw [if_pos h1]
    exact ⟨by decide, by decide⟩
  · rw [if_neg h1]
    have h2 : endsWithSDS (s.foldl (fun r c => build_normalized_path r (some c)) []) = false :=
      endsWithSDS_false_of_no_contains hcont
    simp only [h2, Bool.false_eq_true, if_false]
    refine ⟨hc, ?_⟩
    intro hdot
    exact h1 (Or.inr hdot)

theorem foldl_canonical_fixed :
    ∀ (t a : List Char), canonicalAcc (a ++ t) = true →
      t.foldl (fun r c => build_normalized_path r (some c)) a = a ++ t := by
  intro t
  induction t with
  | nil =>
    intro a _
    simp
  | cons c t ih =>
    intro a h
    obtain ⟨hall, hstart, hcont⟩ := canonicalAcc_spec h
    have hcfix : isFixedChar c = true := by
      rw [List.all_append, Bool.and_eq_true] at hall
      have h2 := hall.2
      rw [List.all_cons, Bool.and_eq_true] at h2
      exact h2.1
    have hmc : mapChar c = c := by
      unfold isFixedChar at hcfix
      rwa [beq_iff_eq] at hcfix
    have hstep : build_normalized_path a (some c) = a ++ [c] := by
      rw [build_some_eq, hmc]
      rw [if_neg ?hc1]
      case hc1 =>
        intro hEq
        apply startsDotBS_false_no hstart t
        have hsplit : a ++ c :: t = (a ++ [c]) ++ t := by simp
        rw [hsplit, hEq]
        rfl
      rw [if_neg ?hc2]
      case hc2 =>
        intro hEnds
        obtain ⟨q, hq⟩ := (endsWithSDS_iff _).mp hEnds
        apply containsSDS_false_no hcont q t
        have hsplit : a ++ c :: t = (a ++ [c]) ++ t := by simp
        rw [hsplit, hq]
    rw [List.foldl_cons, hstep, ih (a ++ [c]) (by simpa using h)]
    simp

theorem normalize_path_fixed {y : List Char} (hy : canonicalAcc y = true)
    (hdot : y ≠ ['.']) : normalize_path y = y := by
  unfold normalize_path
  have h0 : y.foldl (fun r c => build_normalized_path r (some c)) [] = y := by
    have hf := foldl_canonical_fixed y [] (by simpa using hy)
    simpa using hf
  rw [h0, build_none_eq]
  obtain ⟨hall, hstart, hcont⟩ := canonicalAcc_spec hy
  rw [if_neg ?hc]
  case hc =>
    rintro (h1 | h2)
    · exact startsDotBS_false_no hstart [] h1
    · exact hdot h2
  have h2 : endsWithSDS y = false := endsWithSDS_false_of_no_contains hcont
  simp only [h2, Bool.false_eq_true, if_false]

/-- C4 (confirmed): normalization is idempotent — `normalize_path` applied to
its own output returns it unchanged, so normalizing twice equals normalizing
once; in particular an already-canonical path is returned unchanged. -/
theorem c4_normalize_idempotent (s : List Char) :
    normalize_path (normalize_path s) = normalize_path s := by
  obtain ⟨hc, hdot⟩ := normalize_path_inv s
  exact normalize_path_fixed hc hdot

/-- C5 (confirmed): the normalizer maps the six concrete inputs of the spec
exactly as specified. -/
theorem c5_normalize_concrete_cases :
    normalizePathStr "Color.PAL" = "color.pal" ∧
    normalizePathStr "sound/sfx/test.wav" = "sound\\sfx\\test.wav" ∧
    normalizePathStr "./foo" = "foo" ∧
    normalizePathStr "a/./b" = "a\\b" ∧
    normalizePathStr "." = "" ∧
    normalizePathStr "" = "" := by
  refine ⟨?_, ?_, ?_, ?_, ?_, ?_⟩ <;> decide

/-- C6 (confirmed): every output of `normalize_path` is canonical — it
contains no forward slash and no uppercase ASCII letter, the character map
leaves non-ASCII characters' case untouched, no `"\.\"` (separator, dot,
separator) sequence occurs anywhere in it, and it does not begin with
`".\"`. -/
theorem c6_normalize_canonical (s : List Char) :
    (∀ c ∈ normalize_path s, c ≠ '/') ∧
    (∀ c ∈ normalize_path s, ¬('A' ≤ c ∧ c ≤ 'Z')) ∧
    (∀ c : Char, 127 < c.toNat → toAsciiLowercase c = c) ∧
    containsSDS (normalize_path s) = false ∧
    startsDotBS (normalize_path s) = false := by
  obtain ⟨hc, _⟩ := normalize_path_inv s
  obtain ⟨hall, hstart, hcont⟩ := canonicalAcc_spec hc
  rw [List.all_eq_true] at hall
  refine ⟨?_, ?_, toAsciiLowercase_nonascii, hcont, hstart⟩
  · intro c hcmem
    exact ((fixedChar_iff c).mp (hall c hcmem)).1
  · intro c hcmem
    exact ((fixedChar_iff c).mp (hall c hcmem)).2

theorem utf8Bytes_append (a b : List Char) :
    utf8Bytes (a ++ b) = utf8Bytes a ++ utf8Bytes b := by
  unfold utf8Bytes
  rw [List.map_append, List.flatten_append]

theorem utf8CharLenOfByte_ascii {b : Nat} (hb : b < 128) : utf8CharLenOfByte b = 1 := by
  unfold utf8CharLenOfByte
  rw [if_pos hb]

theorem stringRemove_concat_ascii (l : List Nat) (b : Nat) (hb : b < 128) :
    stringRemove (l ++ [b]) l.length = some l := by
  simp only [stringRemove, List.getElem?_concat_length]
  rw [if_pos (Or.inl hb), utf8CharLenOfByte_ascii hb, List.take_left]
  have hd : (l ++ [b]).drop (l.length + 1) = [] := by
    apply List.drop_eq_nil_of_le
    simp
  rw [hd, List.append_nil]

/-- C10 (confirmed): whenever the accumulated path ends with the three-byte
sequence `"\.\"`, its UTF-8 byte content has length at least 3, the removal
at byte index `len - 1` falls on a valid (single-byte) char boundary and
yields the path minus its final backslash, the removal at byte index
`len - 2` of that result again falls on a valid boundary and yields the path
minus the trailing backslash and dot, and the collapse branch of
`build_normalized_path` computes exactly that two-character drop — so the
collapse step never panics, for any input, including paths containing
non-ASCII multi-byte characters. -/
theorem c10_collapse_byte_removals_safe (path : List Char)
    (h : endsWithSDS path = true) :
    3 ≤ (utf8Bytes path).length ∧
    stringRemove (utf8Bytes path) ((utf8Bytes path).length - 1) =
      some (utf8Bytes path.dropLast) ∧
    stringRemove (utf8Bytes path.dropLast) ((utf8Bytes path).length - 2) =
      some (utf8Bytes path.dropLast.dropLast) ∧
    build_normalized_path path none = path.dropLast.dropLast := by
  obtain ⟨q, rfl⟩ := (endsWithSDS_iff path).mp h
  have h1 : utf8Bytes (q ++ ['\\', '.', '\\']) = utf8Bytes q ++ [92, 46, 92] := by
    rw [utf8Bytes_append]
    rfl
  have hlen : (utf8Bytes (q ++ ['\\', '.', '\\'])).length = (utf8Bytes q).length + 3 := by
    rw [h1]
    simp
  have hdl1 : (q ++ ['\\', '.', '\\']).dropLast = q ++ ['\\', '.'] := by
    have hs : q ++ ['\\', '.', '\\'] = (q ++ ['\\', '.']) ++ ['\\'] := by simp
    rw [hs, List.dropLast_concat]
  have hdl2 : (q ++ ['\\', '.']).dropLast = q ++ ['\\'] := by
    have hs : q ++ ['\\', '.'] = (q ++ ['\\']) ++ ['.'] := by simp
    rw [hs, List.dropLast_concat]
  have hb1 : utf8Bytes (q ++ ['\\', '.']) = utf8Bytes q ++ [92, 46] := by
    rw [utf8Bytes_append]
    rfl
  have hb2 : utf8Bytes (q ++ ['\\']) = utf8Bytes q ++ [92] := by
    rw [utf8Bytes_append]
    rfl
  refine ⟨?_, ?_, ?_, ?_⟩
  · rw [hlen]
    omega
  · have hidx : (utf8Bytes (q ++ ['\\', '.', '\\'])).length - 1 =
        (utf8Bytes q ++ [92, 46]).length := by
      rw [hlen]
      simp
    rw [hidx, h1, hdl1, hb1]
    have hsplit : utf8Bytes q ++ [92, 46, 92] = (utf8Bytes q ++ [92, 46]) ++ [92] := by
      simp
    rw [hsplit]
    exact stringRemove_concat_ascii _ 92 (by omega)
  · have hidx : (utf8Bytes (q ++ ['\\', '.', '\\'])).length - 2 =
        (utf8Bytes q ++ [92]).length := by
      rw [hlen]
      simp
    rw [hidx, hdl1, hb1, hdl2, hb2]
    have hsplit : utf8Bytes q ++ [92, 46] = (utf8Bytes q ++ [92]) ++ [46] := by
      simp
    rw [hsplit]
    exact stringRemove_concat_ascii _ 46 (by omega)
  · rw [build_none_eq]
    rw [if_neg ?hc]
    case hc =>
      rintro (hx | hx) <;> {
        have hlx := congrArg List.length hx
        simp at hlx
      }
    rw [if_pos h]

/-- C10 (witness): the accumulated path `['é', '\', '.', '\']` — whose UTF-8
bytes are `[195, 169, 92, 46, 92]`, with a two-byte character — ends with
`"\.\"`, and both byte-index removals succeed, matching the character-level
collapse that `build_normalized_path` performs. -/
theorem c10_collapse_byte_removals_safe_witness :
    endsWithSDS ['é', '\\', '.', '\\'] = true ∧
    (3 ≤ (utf8Bytes ['é', '\\', '.', '\\']).length ∧
     stringRemove (utf8Bytes ['é', '\\', '.', '\\'])
        ((utf8Bytes ['é', '\\', '.', '\\']).length - 1) =
       some (utf8Bytes (['é', '\\', '.', '\\'].dropLast)) ∧
     stringRemove (utf8Bytes (['é', '\\', '.', '\\'].dropLast))
        ((utf8Bytes ['é', '\\', '.', '\\']).length - 2) =
       some (utf8Bytes (['é', '\\', '.', '\\'].dropLast.dropLast)) ∧
     build_normalized_path ['é', '\\', '.', '\\'] none =
       ['é', '\\', '.', '\\'].dropLast.dropLast) :=
  ⟨by decide, c10_collapse_byte_removals_safe ['é', '\\', '.', '\\'] (by decide)⟩
